import Mathlib

/-
Verification of the TBD activity-logger persistence core.

Shallow embedding of:
  - flushBuffer                      (flush.ts)
  - StorageManager.flush             (storageManager.ts, lines 624-648)
  - StorageManager.retrieveLogContent(storageManager.ts, lines 652-670)
  - StorageManager.ensureHiddenLog   (storageManager.ts, lines 323-369)
  - StorageManager.handleLogDeleted  (storageManager.ts, lines 490-564)
  - StorageManager.formatSize        (storageManager.ts, lines 434-446)
  - StorageManager.encrypt/decrypt   (storageManager.ts, lines 41-62)

Events are opaque JSON records to all of the buffer/flush/store logic: only their
identity and relative order matter, so they are modelled as natural numbers.
-/

abbrev Event := Nat

/-
===== SessionLogStore append: StorageManager.flush =====

The session file holds an encrypted JSON object.  For the flush-level claims only
its decoded shape matters, so the file is modelled as either `parsable h` (read,
decrypt and JSON.parse succeed, giving a history object) or `corrupt` (decrypt or
JSON.parse throws).  `SessionHistory.rest` stands for every field of the parsed
object other than `events` (the source preserves them verbatim);
`SessionHistory.events = none` models `history.events` not being an array
(the source then replaces it with `[]`).
-/

structure SessionHistory where
  rest : Nat
  events : Option (List Event)
deriving DecidableEq

inductive FileContent where
  | parsable (h : SessionHistory)
  | corrupt
deriving DecidableEq

/-- Which filesystem operations fail during one flush (a transient I/O fault model:
`readFails` makes `workspace.fs.readFile` throw, `writeFails` makes
`workspace.fs.writeFile` throw). -/
structure FsBehavior where
  readFails : Bool
  writeFails : Bool
deriving DecidableEq

/-- The store state used by `StorageManager.flush`: the `initialized` flag, the
presence of `sessionFileUri`, and the session file content. -/
structure StoreState where
  inited : Bool
  hasFile : Bool
  file : FileContent
deriving DecidableEq

inductive FlushErr where
  | readError
  | decryptOrParseError
  | writeError
deriving DecidableEq

/-- The body of the `try` block of `StorageManager.flush`: read the file, decrypt,
parse, default `events` to `[]` if it is not an array, push the new events, write
back.  Each step can throw, modelled by the `Except` error. -/
def flushBody (beh : FsBehavior) (st : StoreState) (newEvents : List Event) :
    Except FlushErr SessionHistory :=
  if beh.readFails then .error .readError
  else
    match st.file with
    | .corrupt => .error .decryptOrParseError
    | .parsable h =>
        if beh.writeFails then .error .writeError
        else .ok { h with events := some (h.events.getD [] ++ newEvents) }

/-- `StorageManager.flush` (storageManager.ts:624-648).  Returns without doing
anything if the manager is not initialized, the session file URI is unset, or the
batch is empty.  Otherwise runs `flushBody`; every error is caught, logged and
swallowed (`catch (err) { console.error(...) }`), so the function is total: it
never propagates an exception to its caller. -/
def flushSM (beh : FsBehavior) (newEvents : List Event) (st : StoreState) : StoreState :=
  if st.inited = false ∨ st.hasFile = false then st
  else if newEvents = [] then st
  else
    match flushBody beh st newEvents with
    | .ok h' => { st with file := .parsable h' }
    | .error _ => st

/-
===== FlushCoordinator: flushBuffer (flush.ts) =====

The coordinator state is the shared `state` object's `sessionBuffer` and
`isFlushing` fields.  The program is single-threaded async; the only suspension
point inside `flushBuffer` is the `await storageManager.flush(toSave)` call, so
events enqueued concurrently during a flush are modelled by the `arrivals` list:
they are exactly the contents of the (freshly emptied) buffer when the await
resumes.
-/

structure FlushState where
  sessionBuffer : List Event
  isFlushing : Bool
deriving DecidableEq

/-- Outcome of awaiting the store's flush promise: it either resolves normally or
rejects (throws), in both cases leaving the store in some state. -/
inductive Outcome (σ : Type) where
  | returns (st : σ)
  | throws (st : σ)

/-- `flushBuffer` (flush.ts:12-24), generic over the awaited store flush call.
`if (state.isFlushing || state.sessionBuffer.length === 0) return;` then set the
single-flight flag, splice the whole buffer into `toSave`, await the store flush;
on rejection `unshift(...toSave)` prepends the batch back onto whatever the buffer
now holds; `finally` clears the flag. -/
def flushBufferG {σ : Type} (storeFlush : List Event → Outcome σ)
    (arrivals : List Event) (fs : FlushState) (st : σ) : FlushState × σ :=
  if fs.isFlushing = true ∨ fs.sessionBuffer = [] then (fs, st)
  else
    match storeFlush fs.sessionBuffer with
    | .returns st' => (⟨arrivals, false⟩, st')
    | .throws st' => (⟨fs.sessionBuffer ++ arrivals, false⟩, st')

/-- The deployed composition: `flushBuffer` awaiting `storageManager.flush`.
Since `flushSM` is total (the source's `catch` swallows every error and the
function returns normally), the awaited promise always resolves: the store call
is `Outcome.returns`. -/
def flushBufferSys (beh : FsBehavior) (arrivals : List Event)
    (fs : FlushState) (st : StoreState) : FlushState × StoreState :=
  flushBufferG (fun evs => Outcome.returns (flushSM beh evs st)) arrivals fs st

/-- `state.sessionBuffer.push(logEntry)` as performed by the event listeners. -/
def enqueue (fs : FlushState) (e : Event) : FlushState :=
  { fs with sessionBuffer := fs.sessionBuffer ++ [e] }

def enqueueAll (fs : FlushState) (xs : List Event) : FlushState :=
  xs.foldl enqueue fs

def emptyFlushState : FlushState := ⟨[], false⟩

/-- A fault-free filesystem: neither read nor write throws. -/
def behOk : FsBehavior := ⟨false, false⟩

/-- A freshly created, initialized session store whose file holds
`{sessionHeader..., events: []}`; `r` stands for the non-`events` fields. -/
def freshFile (r : Nat) : StoreState := ⟨true, true, .parsable ⟨r, some []⟩⟩

/-- The events currently persisted in the session file, if it is readable. -/
def persistedEvents (st : StoreState) : Option (List Event) :=
  match st.file with
  | .parsable h => some (h.events.getD [])
  | .corrupt => none

theorem enqueueAll_spec (xs : List Event) (fs : FlushState) :
    enqueueAll fs xs = ⟨fs.sessionBuffer ++ xs, fs.isFlushing⟩ := by
  induction xs generalizing fs with
  | nil => simp [enqueueAll]
  | cons x xs ih =>
      show enqueueAll (enqueue fs x) xs = _
      rw [ih]
      simp [enqueue]

/-- Claim C2: for every sequence of enqueue (`sessionBuffer.push`) calls followed
by a flush, when no I/O failure occurs, the on-disk `events` array equals the
enqueued sequence in order — no event is lost, none is duplicated, none is
reordered — and the buffer is left empty. -/
theorem enqueue_flush_preserves_order (xs : List Event) (r : Nat) :
    (flushBufferSys behOk [] (enqueueAll emptyFlushState xs) (freshFile r)).2 =
      ⟨true, true, .parsable ⟨r, some xs⟩⟩ ∧
    (flushBufferSys behOk [] (enqueueAll emptyFlushState xs) (freshFile r)).1 =
      emptyFlushState := by
  rw [enqueueAll_spec]
  cases xs with
  | nil => exact ⟨rfl, rfl⟩
  | cons x xs =>
      simp [flushBufferSys, flushBufferG, flushSM, flushBody, freshFile, behOk,
        emptyFlushState]

/-- Claim C7: a `flushBuffer` call made while another flush is in progress
(`isFlushing` set) or while the buffer is empty returns immediately as a no-op,
modifying neither the buffer nor the store; and a call that actually acquires the
single-flight flag (entered with the flag clear) leaves `isFlushing = false` on
exit for every possible outcome of the awaited store flush — normal return or
throw — because the flag is cleared in the `finally` block. -/
theorem flushBuffer_singleFlight {σ : Type} (storeFlush : List Event → Outcome σ)
    (arrivals : List Event) (fs : FlushState) (st : σ) :
    (fs.isFlushing = true → flushBufferG storeFlush arrivals fs st = (fs, st)) ∧
    (fs.sessionBuffer = [] → flushBufferG storeFlush arrivals fs st = (fs, st)) ∧
    (fs.isFlushing = false →
      (flushBufferG storeFlush arrivals fs st).1.isFlushing = false) := by
  refine ⟨fun h => ?_, fun h => ?_, fun h => ?_⟩
  · simp [flushBufferG, h]
  · simp [flushBufferG, h]
  · unfold flushBufferG
    split
    · next hc =>
        rcases hc with hc | hc
        · exact absurd hc (by simp [h])
        · simp [h]
    · cases storeFlush fs.sessionBuffer <;> simp

theorem flushBuffer_singleFlight_witness :
    flushBufferG (fun _ => Outcome.throws 5) [9] ⟨[1], true⟩ 0 = (⟨[1], true⟩, 0) ∧
    flushBufferG (fun _ => Outcome.throws 5) [9] ⟨[], false⟩ 0 = (⟨[], false⟩, 0) ∧
    (flushBufferG (fun _ => Outcome.throws 5) [9] ⟨[1], false⟩ 0).1.isFlushing = false :=
  ⟨(flushBuffer_singleFlight (fun _ => Outcome.throws 5) [9] ⟨[1], true⟩ 0).1 rfl,
   (flushBuffer_singleFlight (fun _ => Outcome.throws 5) [9] ⟨[], false⟩ 0).2.1 rfl,
   (flushBuffer_singleFlight (fun _ => Outcome.throws 5) [9] ⟨[1], false⟩ 0).2.2 rfl⟩

/-- Claim C10: `StorageManager.flush` never propagates an error to its caller.
For every batch and store, if any internal step (read, decrypt, parse, write)
fails, `flushSM` still returns normally (it is a total function — the source's
`catch` block swallows the error) with the store unchanged, so the batch is not
persisted; and in the composed system the drained batch is not handed back to the
caller for retry: after `flushBuffer` the buffer holds only the events that
arrived during the flush. -/
theorem flush_swallows_errors (beh : FsBehavior) (st : StoreState)
    (evs arrivals : List Event)
    (hin : st.inited = true) (hf : st.hasFile = true) (hne : evs ≠ [])
    (herr : ∃ e, flushBody beh st evs = .error e) :
    flushSM beh evs st = st ∧
    flushBufferSys beh arrivals ⟨evs, false⟩ st = (⟨arrivals, false⟩, st) := by
  obtain ⟨e, he⟩ := herr
  have hsm : flushSM beh evs st = st := by
    unfold flushSM
    rw [if_neg (by simp [hin, hf]), if_neg hne, he]
  refine ⟨hsm, ?_⟩
  unfold flushBufferSys flushBufferG
  rw [if_neg (by simp [hne])]
  simp [hsm]

theorem flush_swallows_errors_witness :
    flushSM ⟨false, true⟩ [1] (freshFile 0) = freshFile 0 ∧
    flushBufferSys ⟨false, true⟩ [2] ⟨[1], false⟩ (freshFile 0) =
      (⟨[2], false⟩, freshFile 0) :=
  flush_swallows_errors ⟨false, true⟩ (freshFile 0) [1] [2] rfl rfl
    (by decide) ⟨.writeError, rfl⟩

/-- Claim C1, counterexample.  The claim asserts that when the store flush fails
while `flushBuffer` is persisting a drained batch, the batch is prepended back
onto the buffer and no event is dropped on a transient write failure.  On the
code this is false: `StorageManager.flush` catches the write error internally and
resolves normally, so `flushBuffer`'s catch branch never runs.  Concretely, with
one buffered event `7` and a failing write, the buffer ends empty and the file
still holds no events — the event is gone, neither persisted nor restored
(the claim requires the buffer to end as `[7]`). -/
theorem flushFailure_drops_batch :
    (flushBufferSys ⟨false, true⟩ [] ⟨[7], false⟩ (freshFile 0)).1.sessionBuffer = [] ∧
    (flushBufferSys ⟨false, true⟩ [] ⟨[7], false⟩ (freshFile 0)).2 = freshFile 0 ∧
    persistedEvents (freshFile 0) = some [] := by decide

/-- Claim C1, amended.  The prepend-on-failure mechanism of `flushBuffer` works
exactly when the awaited store flush rejects: the drained batch is prepended back
onto whatever the buffer now holds, failed events ahead of newly enqueued ones,
and nothing is dropped.  But `StorageManager.flush` catches every internal I/O
failure and resolves normally, so in the deployed composition a transient
read/decrypt/parse/write failure silently drops the drained batch: the buffer
keeps only the events that arrived during the flush and the file is unchanged. -/
theorem flushBuffer_prepends_on_throw :
    (∀ (σ : Type) (storeFlush : List Event → Outcome σ)
       (arrivals toSave : List Event) (st st' : σ),
       toSave ≠ [] → storeFlush toSave = Outcome.throws st' →
       flushBufferG storeFlush arrivals ⟨toSave, false⟩ st =
         (⟨toSave ++ arrivals, false⟩, st')) ∧
    (∀ (beh : FsBehavior) (st : StoreState) (toSave arrivals : List Event),
       toSave ≠ [] → (∃ e, flushBody beh st toSave = Except.error e) →
       flushBufferSys beh arrivals ⟨toSave, false⟩ st = (⟨arrivals, false⟩, st)) := by
  constructor
  · intro σ storeFlush arrivals toSave st st' hne hthrow
    unfold flushBufferG
    rw [if_neg (by simp [hne])]
    simp [hthrow]
  · intro beh st toSave arrivals hne herr
    obtain ⟨e, he⟩ := herr
    have hsm : flushSM beh toSave st = st := by
      unfold flushSM
      by_cases hg : st.inited = false ∨ st.hasFile = false
      · rw [if_pos hg]
      · rw [if_neg hg, if_neg hne, he]
    unfold flushBufferSys flushBufferG
    rw [if_neg (by simp [hne])]
    simp [hsm]

theorem flushBuffer_prepends_on_throw_witness :
    flushBufferG (fun _ => Outcome.throws 9) [5] ⟨[1, 2], false⟩ 0 =
      (⟨[1, 2, 5], false⟩, 9) ∧
    flushBufferSys ⟨true, false⟩ [5] ⟨[1], false⟩ (freshFile 0) =
      (⟨[5], false⟩, freshFile 0) :=
  ⟨flushBuffer_prepends_on_throw.1 Nat (fun _ => Outcome.throws 9) [5] [1, 2] 0 9
      (by decide) rfl,
   flushBuffer_prepends_on_throw.2 ⟨true, false⟩ (freshFile 0) [1] [5]
      (by decide) ⟨.readError, rfl⟩⟩

/-- Claim C5, counterexample.  The claim asserts that when `flush` reads a session
file whose content fails to decrypt or parse, it starts a fresh in-memory
structure flagged corrupted and still appends and persists the new batch.  On the
code this is false: the decrypt/parse error is thrown inside the single `try`
block and the trailing `catch` swallows it, so the whole append is abandoned.
Concretely, flushing batch `[7]` against a corrupt file on a fault-free
filesystem leaves the store byte-for-byte unchanged and persists nothing — there
is no fresh structure and the batch is lost.  (An earlier revision of this
store, kept in the repository, did rebuild `{header: {corrupted: true, ...},
events: []}` on parse failure; the current encrypted rewrite does not.) -/
theorem flush_corrupt_noRecovery_cex :
    flushSM behOk [7] ⟨true, true, FileContent.corrupt⟩ =
      ⟨true, true, FileContent.corrupt⟩ ∧
    persistedEvents (flushSM behOk [7] ⟨true, true, FileContent.corrupt⟩) = none := by
  decide

/-- Claim C5, amended: when `flush` reads an existing session file whose content
fails to decrypt or parse, the error is caught and `flush` returns normally
leaving the store completely unchanged — no fresh corrupted-flagged structure is
created and the new batch is not persisted (history is kept as the unreadable
bytes on disk; the batch is what is lost). -/
theorem flush_corrupt_file_aborts (beh : FsBehavior) (evs : List Event)
    (st : StoreState) (hc : st.file = FileContent.corrupt) :
    flushSM beh evs st = st := by
  have hb : ∃ e, flushBody beh st evs = Except.error e := by
    unfold flushBody
    rw [hc]
    by_cases hr : beh.readFails = true
    · exact ⟨.readError, by rw [if_pos hr]⟩
    · exact ⟨.decryptOrParseError, by rw [if_neg hr]⟩
  obtain ⟨e, hb⟩ := hb
  unfold flushSM
  by_cases hg : st.inited = false ∨ st.hasFile = false
  · rw [if_pos hg]
  · rw [if_neg hg]
    by_cases hev : evs = []
    · rw [if_pos hev]
    · rw [if_neg hev, hb]

theorem flush_corrupt_file_aborts_witness :
    flushSM behOk [3] ⟨true, true, FileContent.corrupt⟩ =
      ⟨true, true, FileContent.corrupt⟩ :=
  flush_corrupt_file_aborts behOk [3] ⟨true, true, FileContent.corrupt⟩ rfl

/-
===== Password-gated retrieval: StorageManager.retrieveLogContent =====

`retrieveLogContent` checks the password first (throwing 'Invalid Password'),
then the initialized flag and session file URI (throwing 'Logger not
initialized'), and only then touches disk.  The second component of the result
records whether any disk access (`workspace.fs.readFile`) was attempted.
-/

def SECRET_PASSPHRASE : String := "password"

inductive RetrieveResult where
  | authError
  | notInited
  | readFailed
  | ok (content : String)
deriving DecidableEq

structure RetrieveState where
  inited : Bool
  hasFile : Bool
  readDecrypt : Option String
deriving DecidableEq

/-- `StorageManager.retrieveLogContent` (storageManager.ts:652-670).
`readDecrypt` is the result of reading and decrypting the session file
(`none` when either throws). -/
def retrieveLogContent (pw : String) (st : RetrieveState) : RetrieveResult × Bool :=
  if pw ≠ SECRET_PASSPHRASE then (.authError, false)
  else if st.inited = false ∨ st.hasFile = false then (.notInited, false)
  else
    match st.readDecrypt with
    | some c => (.ok c, true)
    | none => (.readFailed, true)

/-- Claim C9: `retrieveLogContent` with any password other than the fixed
passphrase fails with the 'Invalid Password' auth error before any disk access is
attempted; with the correct password on a store that was never initialized it
fails with the explicit 'Logger not initialized' error (again without touching
disk), rather than returning empty content. -/
theorem retrieveLogContent_gates (pw : String) (st : RetrieveState) :
    (pw ≠ SECRET_PASSPHRASE → retrieveLogContent pw st = (.authError, false)) ∧
    (st.inited = false →
      retrieveLogContent SECRET_PASSPHRASE st = (.notInited, false)) := by
  constructor
  · intro h
    simp [retrieveLogContent, h]
  · intro h
    simp [retrieveLogContent, h]

theorem retrieveLogContent_gates_witness :
    retrieveLogContent "hunter2" ⟨true, true, some "log"⟩ = (.authError, false) ∧
    retrieveLogContent SECRET_PASSPHRASE ⟨false, true, some "log"⟩ =
      (.notInited, false) :=
  ⟨(retrieveLogContent_gates "hunter2" ⟨true, true, some "log"⟩).1 (by decide),
   (retrieveLogContent_gates "hunter2" ⟨false, true, some "log"⟩).2 rfl⟩

/-
===== DirectoryGuardian: StorageManager.formatSize and handleLogDeleted =====
-/

/-- Two right-padded decimal digits, for the fractional part of `toFixed(2)`. -/
def pad2 (r : Nat) : String :=
  if r < 10 then "0" ++ toString r else toString r

/-- `(n / den).toFixed(2)` for a natural numerator and a power-of-two
denominator.  Dividing by a power of two is exact in IEEE doubles, and
`Number.prototype.toFixed` picks the larger candidate on a tie, so the JS result
is exactly the half-up rounding of the rational `n / den` to hundredths. -/
def toFixed2 (n den : Nat) : String :=
  let h := (n * 100 + den / 2) / den
  toString (h / 100) ++ "." ++ pad2 (h % 100)

/-- `StorageManager.formatSize` (storageManager.ts:434-446).  The source guard is
`if (!bytes || bytes <= 0) return '0 KB';`; on a `Nat` byte count this is exactly
`bytes = 0` (NaN and negatives cannot arise from `FileStat.size`). -/
def formatSize (bytes : Nat) : String :=
  if bytes = 0 then "0 KB"
  else if bytes < 1024 then "1 KB"
  else if bytes < 1048576 then toFixed2 bytes 1024 ++ " KB"
  else if bytes < 1073741824 then toFixed2 bytes 1048576 ++ " MB"
  else toFixed2 bytes 1073741824 ++ " GB"

/-- Longest leading digit run of a character list: the digit values and the rest. -/
def takeDigits : List Char → List Nat × List Char
  | [] => ([], [])
  | c :: cs =>
      if c.isDigit then
        let (ds, rest) := takeDigits cs
        ((c.toNat - 48) :: ds, rest)
      else ([], c :: cs)

def digitsToNat (ds : List Nat) : Nat :=
  ds.foldl (fun a d => a * 10 + d) 0

/-- One attempt of the source's session-number regex (literal `Session`, a digit
group, then a dash) anchored at the head of the list:
the literal `Session`, then at least one digit (greedy, and since `-` is not a
digit no backtracking can succeed with a shorter run), then `-`.  Returns the
captured number. -/
def matchSessionAt (l : List Char) : Option Nat :=
  match l with
  | 'S' :: 'e' :: 's' :: 's' :: 'i' :: 'o' :: 'n' :: rest =>
      match takeDigits rest with
      | ([], _) => none
      | (d :: ds, '-' :: _) => some (digitsToNat (d :: ds))
      | (_ :: _, _) => none
  | _ => none

/-- Leftmost match of the session-number pattern, as `String.prototype.match`
finds it: attempts at each position from the left. -/
def findSessionNum : List Char → Option Nat
  | [] => none
  | c :: cs =>
      match matchSessionAt (c :: cs) with
      | some n => some n
      | none => findSessionNum cs

/-- Session-number extraction of `handleLogDeleted` (storageManager.ts:532-536):
`name.match` with the `Session` digit-group pattern, `parseInt` of the capture,
defaulting to 0 when
the pattern does not occur. -/
def parseSessionNumber (name : String) : Nat :=
  (findSessionNum name.data).getD 0

structure DeletionEntry where
  deletedFile : String
  deletedAt : String
  lastKnownSize : String
deriving DecidableEq

/-- The minimal file recreated at the deleted path.  The remaining
`sessionHeader` fields (startedBy, project, timestamps, versions) are
environmental strings copied verbatim from `getSessionInfo()` and the extension
manifest; they play no role in any claim and are omitted. -/
structure RecreatedLog where
  recreationNotice : String
  sessionNumber : Nat
  events : List Event
deriving DecidableEq

/-- Guardian-visible state: the in-memory `fileIndex` (name to last seen size;
`mtime` is indexed by the source but never used by the deletion handler), the
hidden ledger's `deletions` array (readable happy path of `appendToHiddenLog`),
and the storage directory contents. -/
structure GuardianState where
  fileIndex : List (String × Nat)
  ledger : List DeletionEntry
  storage : List (String × RecreatedLog)
deriving DecidableEq

/-- `workspace.fs.writeFile`: create or overwrite the file at `name`. -/
def setFile (name : String) (v : RecreatedLog) (files : List (String × RecreatedLog)) :
    List (String × RecreatedLog) :=
  (name, v) :: files.eraseP (fun p => p.1 == name)

def recreationNoticeText (deletedAt : String) : String :=
  "This file was previously deleted on " ++ deletedAt ++
    ". New data for this session will be appended below."

/-- `StorageManager.handleLogDeleted` (storageManager.ts:490-564), with `now` the
formatted deletion timestamp: look up the last known size in the index
(`this.fileIndex.get(name) || { size: 0, ... }`), append one `DeletionEntry`
with the human-readable size to the hidden ledger, recreate a minimal file at
the same name whose session number is parsed back out of the filename and whose
`events` list is empty, and finally evict the index entry (the handler re-stats
the recreated file into the index and then deletes the key, so the net effect is
eviction). -/
def handleLogDeleted (now name : String) (g : GuardianState) : GuardianState :=
  let recordedSize := (g.fileIndex.lookup name).getD 0
  let entry : DeletionEntry := ⟨name, now, formatSize recordedSize⟩
  { fileIndex := g.fileIndex.eraseP (fun p => p.1 == name)
  , ledger := g.ledger ++ [entry]
  , storage := setFile name ⟨recreationNoticeText now, parseSessionNumber name, []⟩
      g.storage }

/-- The size-labelling rule exactly as claim C6 states it, for comparison with
the source's `formatSize`: sizes below 1KB are labelled "1 KB", larger sizes use
KB/MB/GB with 2 decimals.  This definition follows the claim's words, not the
source. -/
def specSizeLabel (bytes : Nat) : String :=
  if bytes < 1024 then "1 KB"
  else if bytes < 1048576 then toFixed2 bytes 1024 ++ " KB"
  else if bytes < 1073741824 then toFixed2 bytes 1048576 ++ " MB"
  else toFixed2 bytes 1073741824 ++ " GB"

/-- Claim C6, counterexample.  For a file absent from the index the handler
defaults the size to zero, and the source labels zero as "0 KB" — not "1 KB" as
the claim's quoted rule ("sizes below 1KB are labelled '1 KB'") requires.  The
ledger entry recorded for a deletion of an unindexed file therefore carries
"0 KB", refuting the claim's description of the size label at this input. -/
theorem deletion_sizeLabel_cex :
    (handleLogDeleted "2024-01-01 00:00:00" "u-p-Session3-integrity.log"
        ⟨[], [], []⟩).ledger =
      [⟨"u-p-Session3-integrity.log", "2024-01-01 00:00:00", "0 KB"⟩] ∧
    specSizeLabel 0 = "1 KB" ∧
    formatSize 0 ≠ specSizeLabel 0 := by decide

/-- Claim C6, amended: whenever a session log file is externally deleted, the
guardian's delete handler appends exactly one `DeletionEntry` to the integrity
ledger whose size label is `formatSize` of the last indexed size (defaulting to
zero when the file is absent from the index), where a zero or unknown size is
labelled "0 KB", positive sizes below 1KB are labelled "1 KB", and larger sizes
use KB/MB/GB with 2 decimals; and it recreates a new file at the same path
containing a recreation notice, a session header whose `sessionNumber` is parsed
out of the filename (not reallocated), and an empty `events` list. -/
theorem handleLogDeleted_spec (now name : String) (g : GuardianState) :
    (handleLogDeleted now name g).ledger =
      g.ledger ++ [⟨name, now, formatSize ((g.fileIndex.lookup name).getD 0)⟩] ∧
    (handleLogDeleted now name g).storage.lookup name =
      some ⟨recreationNoticeText now, parseSessionNumber name, []⟩ ∧
    formatSize 0 = "0 KB" ∧
    (∀ b : Nat, 0 < b → b < 1024 → formatSize b = "1 KB") := by
  refine ⟨rfl, ?_, rfl, ?_⟩
  · simp [handleLogDeleted, setFile, List.lookup]
  · intro b h1 h2
    unfold formatSize
    rw [if_neg (by omega), if_pos h2]

theorem handleLogDeleted_spec_witness :
    (handleLogDeleted "T" "u-p-Session2-integrity.log"
        ⟨[("u-p-Session2-integrity.log", 500)], [], []⟩).ledger =
      [⟨"u-p-Session2-integrity.log", "T",
        formatSize (((⟨[("u-p-Session2-integrity.log", 500)], [], []⟩ :
          GuardianState).fileIndex.lookup "u-p-Session2-integrity.log").getD 0)⟩] ∧
    formatSize 500 = "1 KB" :=
  ⟨(handleLogDeleted_spec "T" "u-p-Session2-integrity.log"
      ⟨[("u-p-Session2-integrity.log", 500)], [], []⟩).1,
   (handleLogDeleted_spec "T" "u-p-Session2-integrity.log"
      ⟨[("u-p-Session2-integrity.log", 500)], [], []⟩).2.2.2 500 (by decide)
      (by decide)⟩

/-
===== IntegrityLedger: StorageManager.ensureHiddenLog =====

The hidden ledger file either decodes (decrypt, or plain UTF-8 fallback, then
JSON.parse) to an object with a `deletions` array — `HiddenBlob.valid` — or it
does not (`HiddenBlob.invalid`; the `raw` tag keeps distinct unreadable contents
distinguishable so that preservation of the bytes can be stated).  A rename to
the timestamped `hidden_corrupt_<ts>.bak` name is modelled by appending the old
content to `backups`.
-/

inductive HiddenBlob where
  | valid (deletions : List DeletionEntry)
  | invalid (raw : Nat)
deriving DecidableEq

structure HiddenFS where
  hiddenLog : Option HiddenBlob
  backups : List HiddenBlob
deriving DecidableEq

/-- `StorageManager.ensureHiddenLog` (storageManager.ts:323-369): if the file is
absent, create it with an empty `deletions` list; if present and valid, return
without touching anything; if present but undecodable or missing a `deletions`
array, rename it aside and create a fresh empty one. -/
def ensureHiddenLog (fs : HiddenFS) : HiddenFS :=
  match fs.hiddenLog with
  | some (.valid _) => fs
  | some (.invalid r) => ⟨some (.valid []), fs.backups ++ [.invalid r]⟩
  | none => ⟨some (.valid []), fs.backups⟩

/-- Claim C8: `ensureHiddenLog` is idempotent; if the ledger file is absent it
creates it with an empty deletions list; if the file is present but undecryptable
or structurally invalid it moves the bad file aside under a timestamped backup
name — the unreadable content is preserved in the backup, never silently
discarded — and creates a fresh valid ledger. -/
theorem ensureHiddenLog_spec (fs : HiddenFS) :
    ensureHiddenLog (ensureHiddenLog fs) = ensureHiddenLog fs ∧
    (fs.hiddenLog = none → ensureHiddenLog fs = ⟨some (.valid []), fs.backups⟩) ∧
    (∀ r, fs.hiddenLog = some (.invalid r) →
      (ensureHiddenLog fs).hiddenLog = some (.valid []) ∧
      (ensureHiddenLog fs).backups = fs.backups ++ [.invalid r]) := by
  refine ⟨?_, fun h => ?_, fun r h => ?_⟩
  · unfold ensureHiddenLog
    rcases fs with ⟨log, bks⟩
    match log with
    | some (.valid ds) => rfl
    | some (.invalid r) => rfl
    | none => rfl
  · unfold ensureHiddenLog
    rw [h]
  · unfold ensureHiddenLog
    rw [h]
    exact ⟨rfl, rfl⟩

theorem ensureHiddenLog_spec_witness :
    ensureHiddenLog (ensureHiddenLog ⟨some (.invalid 3), []⟩) =
      ensureHiddenLog ⟨some (.invalid 3), []⟩ ∧
    ensureHiddenLog ⟨none, []⟩ = ⟨some (.valid []), []⟩ ∧
    (ensureHiddenLog ⟨some (.invalid 3), []⟩).hiddenLog = some (.valid []) ∧
    (ensureHiddenLog ⟨some (.invalid 3), []⟩).backups = [.invalid 3] :=
  ⟨(ensureHiddenLog_spec ⟨some (.invalid 3), []⟩).1,
   (ensureHiddenLog_spec ⟨none, []⟩).2.1 rfl,
   ((ensureHiddenLog_spec ⟨some (.invalid 3), []⟩).2.2 3 rfl).1,
   ((ensureHiddenLog_spec ⟨some (.invalid 3), []⟩).2.2 3 rfl).2⟩

/-
===== Codec: StorageManager.encrypt / decrypt =====

The source encrypts with AES-256-CBC under a key derived once from the fixed
passphrase, producing `iv (16 bytes) ++ ciphertext`, and decrypts by splitting
the IV off and running CBC decryption with PKCS#7 padding validation (Node's
`decipher.final()` throws on a wrong final block length or bad padding).

Bytes are natural numbers.  The AES-256 block transform under the fixed key is
kept abstract as a pair of length-preserving mutually inverse functions on
16-byte blocks (`encB`, `decB`) — every theorem below holds for any such pair,
AES-256 under the derived key in particular.  CBC chaining, the IV prefix, and
PKCS#7 padding and its validation are embedded concretely.  Plaintexts are byte
lists (the UTF-8 encoding of the source's strings; byte-level identity gives
string identity).
-/

def xorBlock (a b : List Nat) : List Nat := List.zipWith Nat.xor a b

/-- Split into 16-byte blocks.  Structural recursion on a fuel argument (the
initial length bounds the number of blocks) so that the definition computes by
kernel reduction. -/
def chunksF : Nat → List Nat → List (List Nat)
  | 0, _ => []
  | _, [] => []
  | fuel + 1, a :: l => (a :: l).take 16 :: chunksF fuel ((a :: l).drop 16)

def chunks (l : List Nat) : List (List Nat) := chunksF l.length l

/-- PKCS#7: append `p` copies of `p`, where `p = 16 - len mod 16` (a full block
of 16s when the length is already a multiple of 16). -/
def pad16 (x : List Nat) : List Nat :=
  x ++ List.replicate (16 - x.length % 16) (16 - x.length % 16)

/-- PKCS#7 validation and removal, as OpenSSL performs it: the last byte `p`
must satisfy `1 ≤ p ≤ 16` and the last `p` bytes must all equal `p`; otherwise
a bad-padding error. -/
def unpad16 (y : List Nat) : Option (List Nat) :=
  y.getLast?.bind (fun p =>
    if 1 ≤ p ∧ p ≤ 16 ∧ p ≤ y.length ∧
        (y.drop (y.length - p)).all (fun b => b == p) then
      some (y.take (y.length - p))
    else none)

def cbcEnc (encB : List Nat → List Nat) (prev : List Nat) :
    List (List Nat) → List (List Nat)
  | [] => []
  | p :: ps => encB (xorBlock p prev) :: cbcEnc encB (encB (xorBlock p prev)) ps

def cbcDec (decB : List Nat → List Nat) (prev : List Nat) :
    List (List Nat) → List (List Nat)
  | [] => []
  | c :: cs => xorBlock (decB c) prev :: cbcDec decB c cs

/-- `StorageManager.encrypt` (storageManager.ts:41-47) with the random IV made
an explicit argument (`crypto.randomBytes(IV_LENGTH)`): pad, CBC-encrypt, and
return IV followed by ciphertext. -/
def encryptWithIV (encB : List Nat → List Nat) (iv text : List Nat) : List Nat :=
  iv ++ (cbcEnc encB iv (chunks (pad16 text))).flatten

inductive DecErr where
  | badLength
  | badPadding
deriving DecidableEq

/-- `StorageManager.decrypt` (storageManager.ts:53-62): split the first 16 bytes
off as the IV, require a non-empty ciphertext of whole blocks, CBC-decrypt and
validate/strip the padding; any failure is the thrown `DecryptionError`. -/
def decrypt (decB : List Nat → List Nat) (buf : List Nat) : Except DecErr (List Nat) :=
  if buf.length < 16 then .error .badLength
  else if (buf.drop 16).length = 0 ∨ (buf.drop 16).length % 16 ≠ 0 then
    .error .badLength
  else
    match unpad16 (cbcDec decB (buf.take 16) (chunks (buf.drop 16))).flatten with
    | some t => .ok t
    | none => .error .badPadding

theorem xorBlock_length (a b : List Nat) :
    (xorBlock a b).length = min a.length b.length := by
  simp [xorBlock]

theorem xorBlock_cancel (a b : List Nat) (h : a.length = b.length) :
    xorBlock (xorBlock a b) b = a := by
  induction a generalizing b with
  | nil => simp [xorBlock]
  | cons x xs ih =>
      cases b with
      | nil => simp at h
      | cons y ys =>
          show ((x ^^^ y) ^^^ y) :: xorBlock (xorBlock xs ys) ys = x :: xs
          rw [Nat.xor_assoc, Nat.xor_self, Nat.xor_zero,
            ih ys (by simpa using h)]

theorem chunksF_nil (fuel : Nat) : chunksF fuel [] = [] := by
  cases fuel <;> rfl

theorem chunksF_eq (fuel fuel' : Nat) (l : List Nat) (h : l.length ≤ fuel)
    (h' : l.length ≤ fuel') : chunksF fuel l = chunksF fuel' l := by
  induction fuel generalizing fuel' l with
  | zero =>
      have hl : l = [] := by
        cases l with
        | nil => rfl
        | cons a l => simp at h
      subst hl
      rw [chunksF_nil, chunksF_nil]
  | succ fuel ih =>
      cases l with
      | nil => rw [chunksF_nil, chunksF_nil]
      | cons a l =>
          cases fuel' with
          | zero => simp at h'
          | succ fuel' =>
              show (a :: l).take 16 :: chunksF fuel ((a :: l).drop 16) =
                (a :: l).take 16 :: chunksF fuel' ((a :: l).drop 16)
              congr 1
              apply ih
              · simp only [List.length_drop, List.length_cons]
                simp only [List.length_cons] at h
                omega
              · simp only [List.length_drop, List.length_cons]
                simp only [List.length_cons] at h'
                omega

theorem chunks_nil : chunks [] = [] := rfl

theorem chunks_cons (l : List Nat) (h : l ≠ []) :
    chunks l = l.take 16 :: chunks (l.drop 16) := by
  cases l with
  | nil => exact absurd rfl h
  | cons a l =>
      show chunksF (a :: l).length (a :: l) = _
      have h1 : (a :: l).length = l.length + 1 := by simp
      rw [h1]
      show (a :: l).take 16 :: chunksF l.length ((a :: l).drop 16) = _
      congr 1
      exact chunksF_eq l.length ((a :: l).drop 16).length ((a :: l).drop 16)
        (by simp only [List.length_drop, List.length_cons]; omega) le_rfl

theorem flatten_chunks (l : List Nat) : (chunks l).flatten = l := by
  by_cases h : l = []
  · subst h; rfl
  · rw [chunks_cons l h, List.flatten_cons, flatten_chunks (l.drop 16),
      List.take_append_drop]
termination_by l.length
decreasing_by
  simp only [List.length_drop]
  have := List.length_pos.mpr h
  omega

theorem chunks_len16 (l : List Nat) (h : l.length % 16 = 0) :
    ∀ c ∈ chunks l, c.length = 16 := by
  by_cases hn : l = []
  · subst hn
    intro c hc
    rw [chunks_nil] at hc
    simp at hc
  · have hp : 0 < l.length := List.length_pos.mpr hn
    rw [chunks_cons l hn]
    intro c hc
    rcases List.mem_cons.mp hc with hc | hc
    · subst hc
      rw [List.length_take]
      omega
    · exact chunks_len16 (l.drop 16)
        (by simp only [List.length_drop]; omega) c hc
termination_by l.length
decreasing_by
  simp only [List.length_drop]
  have := List.length_pos.mpr hn
  omega

theorem chunks_flatten (cs : List (List Nat)) (h : ∀ c ∈ cs, c.length = 16) :
    chunks cs.flatten = cs := by
  induction cs with
  | nil => simp [chunks_nil]
  | cons c cs ih =>
      have hc : c.length = 16 := h c (List.mem_cons_self c cs)
      have hnil : c ++ cs.flatten ≠ [] := by
        intro hh
        have h0 := congrArg List.length hh
        rw [List.length_append, hc] at h0
        simp at h0
      rw [List.flatten_cons, chunks_cons _ hnil, List.take_left' hc,
        List.drop_left' hc, ih (fun d hd => h d (List.mem_cons_of_mem c hd))]

theorem flatten_len16 (cs : List (List Nat)) (h : ∀ c ∈ cs, c.length = 16) :
    cs.flatten.length = 16 * cs.length := by
  induction cs with
  | nil => simp
  | cons c cs ih =>
      rw [List.flatten_cons, List.length_append, h c (List.mem_cons_self c cs),
        ih (fun d hd => h d (List.mem_cons_of_mem c hd)), List.length_cons]
      omega

theorem cbcEnc_length (encB : List Nat → List Nat) (prev : List Nat)
    (ps : List (List Nat)) : (cbcEnc encB prev ps).length = ps.length := by
  induction ps generalizing prev with
  | nil => rfl
  | cons p ps ih => simp [cbcEnc, ih]

theorem cbcEnc_blocks16 (encB : List Nat → List Nat)
    (hLenE : ∀ b, (encB b).length = b.length) :
    ∀ (ps : List (List Nat)) (prev : List Nat), prev.length = 16 →
      (∀ p ∈ ps, p.length = 16) → ∀ c ∈ cbcEnc encB prev ps, c.length = 16 := by
  intro ps
  induction ps with
  | nil =>
      intro prev _ _ c hc
      simp [cbcEnc] at hc
  | cons p ps ih =>
      intro prev hprev hps c hc
      have hp : p.length = 16 := hps p (List.mem_cons_self _ _)
      have hcb : (encB (xorBlock p prev)).length = 16 := by
        rw [hLenE, xorBlock_length, hp, hprev]
        decide
      rcases List.mem_cons.mp hc with hc | hc
      · exact hc ▸ hcb
      · exact ih (encB (xorBlock p prev)) hcb
          (fun q hq => hps q (List.mem_cons_of_mem _ hq)) c hc

theorem cbcDec_blocks16 (decB : List Nat → List Nat)
    (hLenD : ∀ b, (decB b).length = b.length) :
    ∀ (cs : List (List Nat)) (prev : List Nat), prev.length = 16 →
      (∀ c ∈ cs, c.length = 16) → ∀ b ∈ cbcDec decB prev cs, b.length = 16 := by
  intro cs
  induction cs with
  | nil =>
      intro prev _ _ b hb
      simp [cbcDec] at hb
  | cons c cs ih =>
      intro prev hprev hcs b hb
      have hc : c.length = 16 := hcs c (List.mem_cons_self _ _)
      rcases List.mem_cons.mp hb with hb | hb
      · rw [hb, xorBlock_length, hLenD, hc, hprev]
        decide
      · exact ih c hc (fun q hq => hcs q (List.mem_cons_of_mem _ hq)) b hb

theorem cbcDec_cbcEnc (encB decB : List Nat → List Nat)
    (hInv : ∀ b, b.length = 16 → decB (encB b) = b)
    (hLenE : ∀ b, (encB b).length = b.length) :
    ∀ (ps : List (List Nat)) (prev : List Nat), prev.length = 16 →
      (∀ p ∈ ps, p.length = 16) →
      cbcDec decB prev (cbcEnc encB prev ps) = ps := by
  intro ps
  induction ps with
  | nil => intro prev _ _; rfl
  | cons p ps ih =>
      intro prev hprev hps
      have hp : p.length = 16 := hps p (List.mem_cons_self _ _)
      have hxb : (xorBlock p prev).length = 16 := by
        rw [xorBlock_length, hp, hprev]
        decide
      show xorBlock (decB (encB (xorBlock p prev))) prev ::
          cbcDec decB (encB (xorBlock p prev)) (cbcEnc encB (encB (xorBlock p prev)) ps) =
        p :: ps
      rw [hInv _ hxb, xorBlock_cancel p prev (by rw [hp, hprev])]
      congr 1
      exact ih (encB (xorBlock p prev)) (by rw [hLenE]; exact hxb)
        (fun q hq => hps q (List.mem_cons_of_mem _ hq))

theorem cbcEnc_cbcDec (encB decB : List Nat → List Nat)
    (hInv2 : ∀ c, c.length = 16 → encB (decB c) = c)
    (hLenD : ∀ b, (decB b).length = b.length) :
    ∀ (cs : List (List Nat)) (prev : List Nat), prev.length = 16 →
      (∀ c ∈ cs, c.length = 16) →
      cbcEnc encB prev (cbcDec decB prev cs) = cs := by
  intro cs
  induction cs with
  | nil => intro prev _ _; rfl
  | cons c cs ih =>
      intro prev hprev hcs
      have hc : c.length = 16 := hcs c (List.mem_cons_self _ _)
      have hd : (decB c).length = 16 := by rw [hLenD]; exact hc
      show encB (xorBlock (xorBlock (decB c) prev) prev) ::
          cbcEnc encB (encB (xorBlock (xorBlock (decB c) prev) prev))
            (cbcDec decB c cs) =
        c :: cs
      rw [xorBlock_cancel (decB c) prev (by rw [hd, hprev]), hInv2 c hc]
      congr 1
      exact ih c hc (fun q hq => hcs q (List.mem_cons_of_mem _ hq))

theorem pad16_length (x : List Nat) :
    (pad16 x).length = x.length + (16 - x.length % 16) := by
  simp [pad16]

theorem pad16_mod (x : List Nat) : (pad16 x).length % 16 = 0 := by
  rw [pad16_length]
  have h := Nat.mod_lt x.length (show 0 < 16 by decide)
  omega

theorem pad16_ne_nil (x : List Nat) : pad16 x ≠ [] := by
  intro h
  have h0 := congrArg List.length h
  rw [pad16_length] at h0
  have h1 := Nat.mod_lt x.length (show 0 < 16 by decide)
  simp only [List.length_nil] at h0
  omega

theorem unpad16_pad16 (x : List Nat) : unpad16 (pad16 x) = some x := by
  have hm : x.length % 16 < 16 := Nat.mod_lt x.length (by decide)
  obtain ⟨p, hp⟩ : ∃ p, p = 16 - x.length % 16 := ⟨_, rfl⟩
  have hpad : pad16 x = x ++ List.replicate p p := by unfold pad16; rw [hp]
  have hp1 : 1 ≤ p := by omega
  have hp16 : p ≤ 16 := by omega
  have hrep : (List.replicate p p).getLast? = some p := by
    obtain ⟨q, hq⟩ : ∃ q, p = q + 1 := ⟨p - 1, by omega⟩
    rw [hq, List.replicate_succ', List.getLast?_concat]
  have hlast : (x ++ List.replicate p p).getLast? = some p := by
    rw [List.getLast?_append, hrep]
    rfl
  have hlen : (x ++ List.replicate p p).length = x.length + p := by simp
  have hsub : (x ++ List.replicate p p).length - p = x.length := by
    rw [hlen]; omega
  rw [hpad]
  simp only [unpad16, hlast, Option.some_bind]
  rw [if_pos]
  · rw [hsub, List.take_left' rfl]
  · refine ⟨hp1, hp16, by rw [hlen]; omega, ?_⟩
    rw [hsub, List.drop_left' rfl]
    simp [List.all_eq_true, List.mem_replicate]

theorem pad16_of_unpad16 (y x : List Nat) (hm : y.length % 16 = 0)
    (h : unpad16 y = some x) : pad16 x = y := by
  unfold unpad16 at h
  cases hg : y.getLast? with
  | none => rw [hg] at h; simp at h
  | some p =>
      rw [hg, Option.some_bind] at h
      by_cases hc : 1 ≤ p ∧ p ≤ 16 ∧ p ≤ y.length ∧
          (y.drop (y.length - p)).all (fun b => b == p)
      · rw [if_pos hc] at h
        obtain ⟨hc1, hc2, hc3, hc4⟩ := hc
        have hx : x = y.take (y.length - p) := by
          injection h with h
          exact h.symm
        have hxl : x.length = y.length - p := by
          rw [hx, List.length_take]
          omega
        have hpp : 16 - x.length % 16 = p := by
          rw [hxl]; omega
        have hdrop : y.drop (y.length - p) = List.replicate p p := by
          rw [List.eq_replicate_iff]
          refine ⟨by rw [List.length_drop]; omega, fun b hb => ?_⟩
          exact eq_of_beq (List.all_eq_true.mp hc4 b hb)
        show x ++ List.replicate (16 - x.length % 16) (16 - x.length % 16) = y
        rw [hpp, hx, ← hdrop, List.take_append_drop]
      · rw [if_neg hc] at h
        simp at h

theorem encryptWithIV_length (encB : List Nat → List Nat)
    (hLenE : ∀ b, (encB b).length = b.length) (iv x : List Nat)
    (hiv : iv.length = 16) :
    (encryptWithIV encB iv x).length = 16 + (pad16 x).length := by
  have hps := chunks_len16 (pad16 x) (pad16_mod x)
  have hcs := cbcEnc_blocks16 encB hLenE (chunks (pad16 x)) iv hiv hps
  have hplen : (pad16 x).length = 16 * (chunks (pad16 x)).length := by
    have h2 := flatten_len16 _ hps
    rw [flatten_chunks] at h2
    exact h2
  rw [encryptWithIV, List.length_append, hiv, flatten_len16 _ hcs,
    cbcEnc_length]
  omega

/-- Claim C4: the codec round-trip law.  For every plaintext byte sequence `x`
and every 16-byte IV, decrypting `encryptWithIV encB iv x` yields exactly `x`,
for any length-preserving block cipher pair with `decB (encB b) = b` on 16-byte
blocks (AES-256 under the fixed derived key being the deployed instance). -/
theorem decrypt_encrypt_roundTrip (encB decB : List Nat → List Nat)
    (hInv : ∀ b, b.length = 16 → decB (encB b) = b)
    (hLenE : ∀ b, (encB b).length = b.length)
    (iv x : List Nat) (hiv : iv.length = 16) :
    decrypt decB (encryptWithIV encB iv x) = .ok x := by
  have hps : ∀ c ∈ chunks (pad16 x), c.length = 16 :=
    chunks_len16 (pad16 x) (pad16_mod x)
  have hcs : ∀ c ∈ cbcEnc encB iv (chunks (pad16 x)), c.length = 16 :=
    cbcEnc_blocks16 encB hLenE (chunks (pad16 x)) iv hiv hps
  have hflat : (cbcEnc encB iv (chunks (pad16 x))).flatten.length =
      16 * (cbcEnc encB iv (chunks (pad16 x))).length := flatten_len16 _ hcs
  have hplen : (pad16 x).length = 16 * (chunks (pad16 x)).length := by
    have h2 := flatten_len16 _ hps
    rw [flatten_chunks] at h2
    exact h2
  have hchne : (chunks (pad16 x)).length ≠ 0 := by
    intro h0
    have h1 : (pad16 x).length = 0 := by rw [hplen, h0]
    exact pad16_ne_nil x (List.length_eq_zero.mp h1)
  have htake : (encryptWithIV encB iv x).take 16 = iv := by
    rw [encryptWithIV]
    exact List.take_left' hiv
  have hdrop : (encryptWithIV encB iv x).drop 16 =
      (cbcEnc encB iv (chunks (pad16 x))).flatten := by
    rw [encryptWithIV]
    exact List.drop_left' hiv
  have hl : (encryptWithIV encB iv x).length =
      16 + 16 * (chunks (pad16 x)).length := by
    rw [encryptWithIV, List.length_append, hiv, hflat, cbcEnc_length]
  have hc1 : ¬((encryptWithIV encB iv x).length < 16) := by
    rw [hl]; omega
  have hde : ((encryptWithIV encB iv x).drop 16).length =
      16 * (chunks (pad16 x)).length := by
    rw [hdrop, hflat, cbcEnc_length]
  have hc2 : ¬(((encryptWithIV encB iv x).drop 16).length = 0 ∨
      ((encryptWithIV encB iv x).drop 16).length % 16 ≠ 0) := by
    rw [hde]
    omega
  unfold decrypt
  rw [if_neg hc1, if_neg hc2, htake, hdrop, chunks_flatten _ hcs,
    cbcDec_cbcEnc encB decB hInv hLenE (chunks (pad16 x)) iv hiv hps,
    flatten_chunks, unpad16_pad16]

/-- The concrete block-cipher instance used by the closed witnesses below:
bytewise XOR with a constant, a length-preserving involution on blocks. -/
def xorB (b : List Nat) : List Nat := b.map (fun v => v ^^^ 90)

theorem xorB_len (b : List Nat) : (xorB b).length = b.length := by
  simp [xorB]

theorem xorB_xorB (b : List Nat) : xorB (xorB b) = b := by
  have h : ∀ v : Nat, (v ^^^ 90) ^^^ 90 = v := fun v => by
    rw [Nat.xor_assoc, Nat.xor_self, Nat.xor_zero]
  simp [xorB, List.map_map, Function.comp_def, h]

theorem decrypt_encrypt_roundTrip_witness :
    decrypt xorB (encryptWithIV xorB (List.replicate 16 0) [104, 105]) =
      .ok [104, 105] :=
  decrypt_encrypt_roundTrip xorB xorB (fun b _ => xorB_xorB b) xorB_len
    (List.replicate 16 0) [104, 105] (by simp)

/-- Claim C3: every blob that is not a faithful output of `encrypt` — not equal
to `encryptWithIV encB iv x` for any IV and plaintext — is rejected by `decrypt`
with a `DecryptionError`; consequently a successful decrypt never returns a
plaintext other than the one whose encryption the blob is, i.e. no silently
wrong plaintext for the blob in hand.  (Caveat recorded with the result: CBC is
not authenticated, so this format-level guarantee is weaker than cryptographic
authentication — a tampered blob whose padding still validates is itself a
faithful encryption of a *different* plaintext and so falls outside the claim's
definition of "corrupted"; see the malleability demonstration below.) -/
theorem decrypt_rejects_nonEncrypt_blobs (encB decB : List Nat → List Nat)
    (hInv2 : ∀ c, c.length = 16 → encB (decB c) = c)
    (hLenD : ∀ b, (decB b).length = b.length)
    (blob : List Nat)
    (hout : ¬ ∃ iv x, iv.length = 16 ∧ encryptWithIV encB iv x = blob) :
    ∃ e, decrypt decB blob = .error e := by
  cases hres : decrypt decB blob with
  | error e => exact ⟨e, rfl⟩
  | ok t =>
      exfalso
      unfold decrypt at hres
      by_cases h1 : blob.length < 16
      · rw [if_pos h1] at hres
        exact Except.noConfusion hres
      · rw [if_neg h1] at hres
        by_cases h2 : (blob.drop 16).length = 0 ∨ (blob.drop 16).length % 16 ≠ 0
        · rw [if_pos h2] at hres
          exact Except.noConfusion hres
        · rw [if_neg h2] at hres
          push_neg at h2
          obtain ⟨h2a, h2b⟩ := h2
          have hiv : (blob.take 16).length = 16 := by
            rw [List.length_take]
            omega
          have hcs16 : ∀ c ∈ chunks (blob.drop 16), c.length = 16 :=
            chunks_len16 _ h2b
          have hdec16 : ∀ b ∈ cbcDec decB (blob.take 16) (chunks (blob.drop 16)),
              b.length = 16 :=
            cbcDec_blocks16 decB hLenD _ _ hiv hcs16
          cases hu : unpad16
              (cbcDec decB (blob.take 16) (chunks (blob.drop 16))).flatten with
          | none =>
              rw [hu] at hres
              exact Except.noConfusion hres
          | some t' =>
              rw [hu] at hres
              apply hout
              refine ⟨blob.take 16, t', hiv, ?_⟩
              have hpadded : pad16 t' =
                  (cbcDec decB (blob.take 16) (chunks (blob.drop 16))).flatten :=
                pad16_of_unpad16 _ _ (by rw [flatten_len16 _ hdec16]; omega) hu
              rw [encryptWithIV, hpadded, chunks_flatten _ hdec16,
                cbcEnc_cbcDec encB decB hInv2 hLenD _ _ hiv hcs16,
                flatten_chunks, List.take_append_drop]

theorem decrypt_rejects_nonEncrypt_blobs_witness :
    ∃ e, decrypt xorB (List.replicate 16 0) = Except.error e :=
  decrypt_rejects_nonEncrypt_blobs xorB xorB (fun c _ => xorB_xorB c) xorB_len
    (List.replicate 16 0)
    (fun h => by
      obtain ⟨iv, x, hiv, he⟩ := h
      have h1 := congrArg List.length he
      rw [encryptWithIV_length xorB xorB_len iv x hiv] at h1
      have h2 : (pad16 x).length = x.length + (16 - x.length % 16) :=
        pad16_length x
      have h3 : x.length % 16 < 16 := Nat.mod_lt x.length (by decide)
      simp only [List.length_replicate] at h1
      omega)

/-- CBC malleability, concretely: flipping one byte of the stored IV of a
genuine two-block encryption yields a blob that `decrypt` accepts without error,
returning a plaintext that differs from the one originally encrypted (in byte 0
only).  Such a blob is, by the round-trip structure, itself a faithful
encryption of that other plaintext, which is why it does not contradict the
range-based corruption property above — but it documents that the codec's
integrity guarantee is format validation, not authentication. -/
theorem cbc_iv_malleability_demo :
    decrypt xorB
        (1 :: (encryptWithIV xorB (List.replicate 16 0)
          (List.replicate 20 7)).drop 1) =
      .ok (6 :: List.replicate 19 7) ∧
    (6 :: List.replicate 19 7) ≠ List.replicate 20 7 :=
  ⟨rfl, by decide⟩
